import Mathlib

/-!
Shallow embedding of `outparser.py` (Macmod/outparser): a batch converter of
`.msg` container files into line-delimited JSON records.  Pure normalizer
functions are translated directly; the opaque container decoder
(`extract_msg`) and the filesystem are modelled as explicit data
(a decode outcome value, an association-list filesystem).
-/

/-- A Python runtime value as it can reach `clean_value`:
`None`, a `bytes` payload (list of byte values), a `str`, or any other
object represented by the string its `str()` produces. -/
inductive PVal where
  | vnone : PVal
  | vbytes : List Nat → PVal
  | vstr : String → PVal
  | vother : String → PVal
deriving DecidableEq

/-- Python `s.replace("\x00", "")`: remove every NUL character from a string. -/
def removeNul (s : String) : String :=
  String.mk (s.data.filter (fun c => c ≠ '\x00'))

/-- Whether a string contains a NUL character. -/
def hasNul (s : String) : Bool :=
  s.data.any (fun c => c = '\x00')

/-- The cp1252 undefined byte positions (0x81, 0x8D, 0x8F, 0x90, 0x9D):
with `errors="replace"` these decode to U+FFFD. -/
def cp1252Undefined (b : Nat) : Bool :=
  b = 0x81 || b = 0x8D || b = 0x8F || b = 0x90 || b = 0x9D

/-- Decoding of one byte under Windows-1252 with `errors="replace"`.
Bytes 0x00-0x7F and 0xA0-0xFF map to the same code point; 0x80-0x9F map
through the Windows-1252 table; the five undefined bytes become U+FFFD. -/
def cp1252DecodeByte (b0 : Nat) : Char :=
  let b := b0 % 256
  if cp1252Undefined b then '�'
  else if b = 0x80 then '€'
  else if b = 0x82 then '‚'
  else if b = 0x83 then 'ƒ'
  else if b = 0x84 then '„'
  else if b = 0x85 then '…'
  else if b = 0x86 then '†'
  else if b = 0x87 then '‡'
  else if b = 0x88 then 'ˆ'
  else if b = 0x89 then '‰'
  else if b = 0x8A then 'Š'
  else if b = 0x8B then '‹'
  else if b = 0x8C then 'Œ'
  else if b = 0x8E then 'Ž'
  else if b = 0x91 then '‘'
  else if b = 0x92 then '’'
  else if b = 0x93 then '“'
  else if b = 0x94 then '”'
  else if b = 0x95 then '•'
  else if b = 0x96 then '–'
  else if b = 0x97 then '—'
  else if b = 0x98 then '˜'
  else if b = 0x99 then '™'
  else if b = 0x9A then 'š'
  else if b = 0x9B then '›'
  else if b = 0x9C then 'œ'
  else if b = 0x9E then 'ž'
  else if b = 0x9F then 'Ÿ'
  else Char.ofNat b

/-- Python `bs.decode("cp1252", errors="replace")`. -/
def cp1252Decode (bs : List Nat) : String :=
  String.mk (bs.map cp1252DecodeByte)

/-- Model of `clean_value` (outparser.py lines 33-40).
`None` yields `""`; `bytes` first drop NUL bytes, decode as cp1252 with
replacement, and then (falling through to the `str` branch) drop NUL
characters; `str` drops NUL characters; anything else is stringified. -/
def clean_value (value : PVal) : String :=
  match value with
  | PVal.vnone => ""
  | PVal.vbytes bs => removeNul (cp1252Decode (bs.filter (fun b => b ≠ 0)))
  | PVal.vstr s => removeNul s
  | PVal.vother r => r

/-- The whitespace characters removed by Python `str.strip()`. -/
def isPySpace (c : Char) : Bool :=
  c.toNat = 0x09 || c.toNat = 0x0A || c.toNat = 0x0B || c.toNat = 0x0C ||
  c.toNat = 0x0D || c.toNat = 0x1C || c.toNat = 0x1D || c.toNat = 0x1E ||
  c.toNat = 0x1F || c.toNat = 0x20 || c.toNat = 0x85 || c.toNat = 0xA0 ||
  c.toNat = 0x1680 || (0x2000 ≤ c.toNat && c.toNat ≤ 0x200A) ||
  c.toNat = 0x2028 || c.toNat = 0x2029 || c.toNat = 0x202F ||
  c.toNat = 0x205F || c.toNat = 0x3000

/-- Python `s.strip()`: drop leading and trailing whitespace. -/
def pyStrip (s : String) : String :=
  String.mk (((s.data.dropWhile isPySpace).reverse.dropWhile isPySpace).reverse)

/-- Python split on a single separator character: the groups of
characters between the separator occurrences, with empty groups kept
(so splitting the empty string yields one empty group). -/
def pySplit (sep : Char) : List Char → List (List Char)
  | [] => [[]]
  | c :: rest =>
    let groups := pySplit sep rest
    if c = sep then [] :: groups
    else
      match groups with
      | [] => [[c]]
      | g :: gs => (c :: g) :: gs

/-- Model of `summarize_addresses` (outparser.py lines 13-22).
Empty (falsy) input yields `""`; otherwise the input is split on `";"`,
each entry stripped and cleaned, and the entries joined, truncated to
`limit` entries plus an "and N others" suffix when there are more than
`limit ≥ 1` of them. -/
def summarize_addresses (addresses : String) (limit : Nat) : String :=
  if addresses = "" then ""
  else
    let addr_list := (pySplit ';' addresses.data).map
      (fun a => clean_value (PVal.vstr (pyStrip (String.mk a))))
    if limit = 0 ∨ addr_list.length ≤ limit then
      String.intercalate ", " addr_list
    else
      String.intercalate ", " (addr_list.take limit) ++
        ", and " ++ toString (addr_list.length - limit) ++ " others"

/-- The character class `[\x00-\x1F\x7F]` of the first regex in `safe_filename`. -/
def isCtrlChar (c : Char) : Bool :=
  c.toNat ≤ 0x1F || c.toNat = 0x7F

/-- The character class of the second regex in `safe_filename`:
the filesystem-forbidden characters. -/
def isForbiddenChar (c : Char) : Bool :=
  c = '\\' || c = '/' || c = ':' || c = '*' || c = '?' || c = '\"' ||
  c = '<' || c = '>' || c = '|'

/-- Model of `safe_filename` (outparser.py lines 24-31): strip control characters
(including NUL), replace each forbidden filesystem character with an
underscore, and fall back to a fixed placeholder when the result is empty. -/
def safe_filename (name : String) : String :=
  let name1 := String.mk (name.data.filter (fun c => !isCtrlChar c))
  let name2 := String.mk (name1.data.map (fun c => if isForbiddenChar c then '_' else c))
  if name2 = "" then "unnamed_attachment" else name2

/-- Helper for the regex `<[^>]+>` after its `[^>]+` part has consumed at
least one character: scan forward to the first `>` and return the
characters after it, or `none` when no `>` follows. -/
def afterGt : List Char → Option (List Char)
  | [] => none
  | c :: rest => if c = '>' then some rest else afterGt rest

/-- Whether the regex `<[^>]+>` matches right after a `<` at the current
position: the next character must not be `>`, and a `>` must follow.
Returns the characters after the matched `>`. -/
def afterTag : List Char → Option (List Char)
  | [] => none
  | c :: rest => if c = '>' then none else afterGt rest

/-- One left-to-right pass of the regex substitution removing tag matches, fuelled by a
bound on the number of characters still to examine.  At a `<` that starts
a match the whole match is dropped and scanning resumes after it;
otherwise the character is kept. -/
def subTagsF : Nat → List Char → List Char
  | 0, cs => cs
  | _ + 1, [] => []
  | n + 1, c :: rest =>
    if c = '<' then
      match afterTag rest with
      | some rest2 => subTagsF n rest2
      | none => c :: subTagsF n rest
    else
      c :: subTagsF n rest

/-- Model of the regex substitution that drops tag matches: the fuel `s.data.length` always suffices
because every step of `subTagsF` consumes at least one character. -/
def stripSub (s : String) : String :=
  String.mk (subTagsF s.data.length s.data)

/-- Model of `strip_html_tags` (outparser.py lines 42-46).  The argument is an
`Option String` so that the Python guard returning falsy input unchanged covers both
an absent (`None`) and an empty input. -/
def strip_html_tags (text : Option String) : Option String :=
  match text with
  | none => none
  | some s => if s = "" then some s else some (stripSub s)

/-- Whether a character list contains a tag-shaped substring `<[^>]+>`
starting at some position. -/
def hasTag : List Char → Bool
  | [] => false
  | c :: rest => ((c = '<') && (afterTag rest).isSome) || hasTag rest

/-- Python `x or y` on two strings: the left operand unless it is empty. -/
def pyOrStr (a b : String) : String :=
  if a = "" then b else a

/-- The body-selection logic of `process_msg_file` (outparser.py lines
55-59): `clean_value(msg.htmlBody) or clean_value(msg.body) or ""`,
followed by `strip_html_tags` when `strip_tags` is set and the selected
body is nonempty (in which case `strip_html_tags` reduces to `stripSub`). -/
def selectBody (htmlBody bodyV : PVal) (strip_tags : Bool) : String :=
  let msg_body := pyOrStr (clean_value htmlBody) (pyOrStr (clean_value bodyV) "")
  if strip_tags ∧ msg_body ≠ "" then stripSub msg_body else msg_body

/-- The `MessageID` field of the record (outparser.py line 81):
`clean_value(getattr(msg, "messageId", "UNKNOWN"))`.  The argument is
`none` when the decoded message has no `messageId` attribute at all, and
`some v` when the attribute exists with value `v` (possibly `None`). -/
def messageIdField (attr : Option PVal) : String :=
  clean_value (attr.getD (PVal.vstr "UNKNOWN"))

/-- One decoded attachment entry: the optional long and short filenames
(a `none` models a missing/`None` attribute) and the raw byte payload. -/
structure Attachment where
  longFilename : Option String
  shortFilename : Option String
  data : List Nat
deriving DecidableEq

/-- Python truthiness of an optional string: `False` for `None` and for
the empty string. -/
def pyTruthy (o : Option String) : Bool :=
  match o with
  | none => false
  | some s => s ≠ ""

/-- Python `att.longFilename or att.shortFilename` (outparser.py line 64):
the long name when truthy, otherwise the short name (whatever it is). -/
def rawName (a : Attachment) : Option String :=
  if pyTruthy a.longFilename then a.longFilename else a.shortFilename

/-- The filesystem of the attachments directory, modelled as an
association list from full paths to byte payloads; a later write shadows
an earlier one. -/
def Fs := List (String × List Nat)

/-- Model of opening the save path in binary write mode and writing: create or
truncate the file at `path` and write `d`. -/
def fsWrite (fs : Fs) (path : String) (d : List Nat) : Fs :=
  (path, d) :: fs

/-- The current content of the file at `path`, if it exists. -/
def fsLookup (fs : Fs) (path : String) : Option (List Nat) :=
  match fs with
  | [] => none
  | e :: rest => if e.1 = path then some e.2 else fsLookup rest path

/-- The name an attachment is saved under (outparser.py line 69):
`f"{Path(filepath).stem}_{safe_filename(filename)}"`, where `stem` is
the `Path.stem` of the source file. -/
def savedName (stem : String) (a : Attachment) : String :=
  stem ++ "_" ++ safe_filename ((rawName a).getD "")

/-- The attachment loop of `process_msg_file` (outparser.py lines 62-73):
entries whose `longFilename or shortFilename` is falsy are skipped;
the payload of each other entry is written (creating or overwriting) at
`attachments_dir/savedName`, and `clean_value` of the saved name is
appended to the returned list.  Returns the names in attachment order
together with the updated filesystem. -/
def materialize (atts : List Attachment) (stem attachments_dir : String) (fs : Fs) :
    List String × Fs :=
  match atts with
  | [] => ([], fs)
  | a :: rest =>
    if pyTruthy (rawName a) then
      let unique_name := savedName stem a
      let fs1 := fsWrite fs (attachments_dir ++ "/" ++ unique_name) a.data
      let tail := materialize rest stem attachments_dir fs1
      (clean_value (PVal.vstr unique_name) :: tail.1, tail.2)
    else
      materialize rest stem attachments_dir fs

/-- The payload of the last retained attachment in `atts` whose computed
save path equals `path`, if any. -/
def lastWrite (atts : List Attachment) (stem attachments_dir path : String) :
    Option (List Nat) :=
  match atts with
  | [] => none
  | a :: rest =>
    match lastWrite rest stem attachments_dir path with
    | some d => some d
    | none =>
      if pyTruthy (rawName a) ∧ attachments_dir ++ "/" ++ savedName stem a = path then
        some a.data
      else
        none

/-- The fields of a successfully decoded message used by
`process_msg_file`.  The decoder (`extract_msg`) is external, so its
output is data: `date` is the ISO string of `msg.date` when that is a
datetime, `none` when it is absent (`msg.date or ""` then yields `""`);
`sender` and `toAddr` (the `msg.to` attribute; `to` is reserved in Lean)
are the raw address strings (a `None` behaves exactly like `""` in
`summarize_addresses`); `htmlBody`, `body` and the optional `messageId`
attribute are arbitrary Python values. -/
structure MsgData where
  date : Option String
  sender : String
  toAddr : String
  htmlBody : PVal
  body : PVal
  messageId : Option PVal
  attachments : List Attachment
deriving DecidableEq

/-- The JSON record produced for one successfully converted file
(outparser.py lines 75-83). -/
structure MessageRecord where
  Date : String
  From : String
  To : String
  Message : String
  Attachments : List String
  MessageID : String
  SourceFile : String
deriving DecidableEq

/-- The successful path of `process_msg_file` (outparser.py lines 50-83)
after decoding succeeded: normalize the fields, materialize the
attachments, and build the record.  Returns the record together with the
filesystem updated by the attachment writes. -/
def buildRecord (msg : MsgData) (filepath stem attachments_dir : String)
    (from_limit to_limit : Nat) (strip_tags : Bool) (fs : Fs) :
    MessageRecord × Fs :=
  let saved := materialize msg.attachments stem attachments_dir fs
  ({ Date := msg.date.getD ""
     From := summarize_addresses msg.sender from_limit
     To := summarize_addresses msg.toAddr to_limit
     Message := selectBody msg.htmlBody msg.body strip_tags
     Attachments := saved.1
     MessageID := messageIdField msg.messageId
     SourceFile := filepath }, saved.2)

/-- The task boundary of `process_msg_file` (outparser.py lines 50 and
85-87): the whole try-block — decoding by the external `extract_msg`
library, normalization, and the attachment writes — is modelled as an
`Except` outcome, `Except.error e` standing for any exception `e` raised
inside the block.  A success yields `(record, None)`; any exception is
caught and yields `(None, "Error parsing {filepath}: {e}")`. -/
def process_msg_file (filepath : String) (body : Except String MessageRecord) :
    Option MessageRecord × Option String :=
  match body with
  | Except.ok r => (some r, none)
  | Except.error e => (none, some ("Error parsing " ++ filepath ++ ": " ++ e))

/-- The result-collection loop of `main` (outparser.py lines 133-139):
for each completed task, append the record (a nonempty dict, hence
truthy) to the output stream when present, and append the error message
(a nonempty string when present) to the error list.  Returns the output
stream and the error list. -/
def streamPhase (results : List (Option MessageRecord × Option String)) :
    List MessageRecord × List String :=
  match results with
  | [] => ([], [])
  | p :: rest =>
    let tail := streamPhase rest
    (p.1.toList ++ tail.1, p.2.toList ++ tail.2)

/-- One line of the output file as read back by the reorder pass
(outparser.py line 152): a JSON object, of which only the `Date` field
matters for sorting (`r.get("Date", "")`); the other fields are kept
opaque in `rest`. -/
structure OutRecord where
  dateField : Option String
  rest : String
deriving DecidableEq

/-- The sort key of a record: `r.get("Date", "")` (outparser.py line 154),
so a missing `Date` field sorts as the empty string. -/
def dateKey (r : OutRecord) : String :=
  r.dateField.getD ""

/-- Lexicographic comparison of character lists by code point, the order
Python uses to compare strings. -/
def charListLe : List Char → List Char → Bool
  | [], _ => true
  | _ :: _, [] => false
  | a :: as, b :: bs =>
    if a.toNat < b.toNat then true
    else if b.toNat < a.toNat then false
    else charListLe as bs

/-- Python string `<=`: lexicographic by code point. -/
def strLeB (a b : String) : Bool :=
  charListLe a.data b.data

theorem charListLe_refl (l : List Char) : charListLe l l = true := by
  induction l with
  | nil => rfl
  | cons a as ih => simp [charListLe, ih]

theorem charListLe_total (a b : List Char) :
    charListLe a b = true ∨ charListLe b a = true := by
  induction a generalizing b with
  | nil => exact Or.inl rfl
  | cons x xs ih =>
    cases b with
    | nil => exact Or.inr rfl
    | cons y ys =>
      rcases Nat.lt_trichotomy x.toNat y.toNat with h | h | h
      · exact Or.inl (by simp [charListLe, h])
      · rcases ih ys with h2 | h2
        · exact Or.inl (by simp [charListLe, h, h2])
        · exact Or.inr (by simp [charListLe, h, h2])
      · exact Or.inr (by simp [charListLe, h, Nat.lt_asymm h])

theorem charListLe_trans {a b c : List Char}
    (hab : charListLe a b = true) (hbc : charListLe b c = true) :
    charListLe a c = true := by
  induction a generalizing b c with
  | nil => rfl
  | cons x xs ih =>
    cases b with
    | nil => simp [charListLe] at hab
    | cons y ys =>
      cases c with
      | nil => simp [charListLe] at hbc
      | cons z zs =>
        simp only [charListLe] at hab hbc ⊢
        rcases Nat.lt_trichotomy x.toNat y.toNat with hxy | hxy | hxy
        · rcases Nat.lt_trichotomy y.toNat z.toNat with hyz | hyz | hyz
          · simp [Nat.lt_trans hxy hyz]
          · simp [hyz ▸ hxy]
          · simp [hyz, Nat.lt_asymm hyz] at hbc
        · rcases Nat.lt_trichotomy y.toNat z.toNat with hyz | hyz | hyz
          · simp [hxy ▸ hyz]
          · have hxz : x.toNat = z.toNat := hxy.trans hyz
            simp [hxy, Nat.lt_irrefl] at hab
            simp [hyz, Nat.lt_irrefl] at hbc
            simp [hxz, Nat.lt_irrefl, ih hab hbc]
          · simp [hyz, Nat.lt_asymm hyz] at hbc
        · simp [hxy, Nat.lt_asymm hxy] at hab

theorem strLeB_refl (s : String) : strLeB s s = true :=
  charListLe_refl s.data

theorem strLeB_total (a b : String) : strLeB a b = true ∨ strLeB b a = true :=
  charListLe_total a.data b.data

theorem strLeB_trans {a b c : String}
    (hab : strLeB a b = true) (hbc : strLeB b c = true) : strLeB a c = true :=
  charListLe_trans hab hbc

/-- The empty string is the lowest string in the Python order. -/
theorem strLeB_empty_lowest (s : String) : strLeB "" s = true := rfl

/-- The ascending comparison used by `records.sort(key=..., reverse=False)`. -/
def ascR (a b : OutRecord) : Prop :=
  strLeB (dateKey a) (dateKey b) = true

/-- The descending comparison used by `records.sort(key=..., reverse=True)`:
the CPython stable sort with the reverse flag set orders by the reversed key
comparison while keeping records with equal keys in their original
order, which is exactly a stable sort under the flipped preorder. -/
def descR (a b : OutRecord) : Prop :=
  strLeB (dateKey b) (dateKey a) = true

instance : DecidableRel ascR := fun a b =>
  inferInstanceAs (Decidable (strLeB (dateKey a) (dateKey b) = true))

instance : DecidableRel descR := fun a b =>
  inferInstanceAs (Decidable (strLeB (dateKey b) (dateKey a) = true))

instance : IsTotal OutRecord ascR :=
  ⟨fun a b => strLeB_total (dateKey a) (dateKey b)⟩

instance : IsTrans OutRecord ascR :=
  ⟨fun _ _ _ hab hbc => strLeB_trans hab hbc⟩

instance : IsTotal OutRecord descR :=
  ⟨fun a b => strLeB_total (dateKey b) (dateKey a)⟩

instance : IsTrans OutRecord descR :=
  ⟨fun _ _ _ hab hbc => strLeB_trans hbc hab⟩

/-- The reorder pass of `main` (outparser.py lines 148-158): when the
sort mode is not exactly `"none"`, the whole output file is read into
memory, stable-sorted on `r.get("Date", "")` — in reverse exactly when
the mode is exactly `"desc"` — and rewritten in full.  The stable sort
(CPython Timsort) is modelled by `List.insertionSort`, which is stable
and produces the same, unique, stably-sorted result. -/
def reorderPass (mode : String) (records : List OutRecord) : List OutRecord :=
  if mode = "none" then records
  else if mode = "desc" then List.insertionSort descR records
  else List.insertionSort ascR records

theorem any_nul_filter (l : List Char) :
    (l.filter (fun c => c ≠ '\x00')).any (fun c => c = '\x00') = false := by
  induction l with
  | nil => rfl
  | cons a as ih => by_cases h : a = '\x00' <;> simp [List.filter, h, ih]

theorem hasNul_removeNul (s : String) : hasNul (removeNul s) = false :=
  any_nul_filter s.data

theorem removeNul_eq_self {s : String} (h : hasNul s = false) : removeNul s = s := by
  obtain ⟨l⟩ := s
  simp only [hasNul, List.any_eq_false] at h
  simp only [removeNul]
  congr 1
  apply List.filter_eq_self.mpr
  intro a ha
  simpa using h a ha

theorem hasNul_append (a b : String) : hasNul (a ++ b) = (hasNul a || hasNul b) := by
  simp [hasNul, String.data_append, List.any_append]

/-- Restatement of the C2 sentence from the words of the spec: split on
the semicolon, trim and clean each entry, and when the count exceeds a
limit of at least 1 keep exactly the first `limit` entries with an
"and N others" suffix, otherwise join them all. -/
def summarizeAddresses_spec (raw : String) (limit : Nat) : String :=
  if raw = "" then ""
  else
    let entries := (pySplit ';' raw.data).map (fun a => removeNul (pyStrip (String.mk a)))
    let count := entries.length
    if 1 ≤ limit ∧ limit < count then
      String.intercalate ", " (entries.take limit) ++
        ", and " ++ toString (count - limit) ++ " others"
    else
      String.intercalate ", " entries

/-- C2: for every address string and non-negative limit,
`summarize_addresses` returns the empty string on empty input and
otherwise splits on the semicolon, trims and cleans each entry, joins
all entries when the limit is 0 or the count is at most the limit, and
otherwise joins exactly the first `limit` cleaned entries followed by
the "and N others" suffix; three concrete instances exercise the empty,
the unlimited, and the truncating branch. -/
theorem summarize_addresses_correct :
    (∀ (addresses : String) (limit : Nat),
      summarize_addresses addresses limit = summarizeAddresses_spec addresses limit) ∧
    summarize_addresses "" 7 = "" ∧
    summarize_addresses "x;y" 0 = "x, y" ∧
    summarize_addresses " a ;b;c" 2 = "a, b, and 1 others" := by
  refine ⟨fun addresses limit => ?_, by decide, by decide, by decide⟩
  simp only [summarize_addresses, summarizeAddresses_spec, clean_value]
  by_cases h0 : addresses = ""
  · simp [h0]
  · simp only [h0, if_neg, ite_false]
    split_ifs with h1 h2 <;> first | rfl | omega

/-- C4 counterexample: the claim says the `clean_value` output contains
no NUL character for every input of any kind, including arbitrary
(`vother`) values; but on the fallthrough branch the code returns
`str(value)` unchanged, so a value whose stringification contains a NUL
(for example an object whose `__str__` yields just a NUL character)
produces an output with a NUL. -/
theorem clean_value_nul_cex :
    hasNul (clean_value (PVal.vother (String.mk ['\x00']))) = true := by decide

/-- C4 (amended): `clean_value` is total and characterizes each branch —
empty string for null, cp1252 decoding with replacement after NUL-byte
removal for bytes, NUL-character removal for text, and the unchanged
stringification for any other value — and its output contains no NUL
character for null, byte, and text inputs (but not necessarily for the
stringification of other values). -/
theorem clean_value_total_and_nulfree :
    (clean_value PVal.vnone = "") ∧
    (∀ bs, clean_value (PVal.vbytes bs) =
      removeNul (cp1252Decode (bs.filter (fun b => b ≠ 0)))) ∧
    (∀ s, clean_value (PVal.vstr s) = removeNul s) ∧
    (∀ r, clean_value (PVal.vother r) = r) ∧
    (hasNul (clean_value PVal.vnone) = false) ∧
    (∀ bs, hasNul (clean_value (PVal.vbytes bs)) = false) ∧
    (∀ s, hasNul (clean_value (PVal.vstr s)) = false) := by
  refine ⟨rfl, fun bs => rfl, fun s => rfl, fun r => rfl, rfl, fun bs => ?_, fun s => ?_⟩
  · exact hasNul_removeNul _
  · exact hasNul_removeNul _

/-- Restatement of the C5 sentence from the words of the spec: first
strip the control characters, then substitute an underscore for each
filesystem-forbidden character, and fall back to the placeholder when
nothing remains. -/
def safeFilename_spec (name : String) : String :=
  let replaced := (name.data.filter (fun c => !isCtrlChar c)).map
    (fun c => if isForbiddenChar c then '_' else c)
  if replaced.isEmpty then "unnamed_attachment" else String.mk replaced

theorem string_mk_eq_empty_iff (l : List Char) : (String.mk l = "") ↔ l = [] := by
  constructor
  · intro h
    have : (String.mk l).data = ("" : String).data := by rw [h]
    simpa using this
  · intro h
    rw [h]

/-- C5: `safe_filename` first strips control characters (including NUL),
then replaces each filesystem-forbidden character with an underscore,
and substitutes the fixed placeholder when the result is empty; it maps
"a/b:c" to "a_b_c", maps an all-control-character name to the
placeholder, and never returns the empty string. -/
theorem safe_filename_correct :
    (∀ name, safe_filename name = safeFilename_spec name) ∧
    safe_filename "a/b:c" = "a_b_c" ∧
    safe_filename (String.mk ['\x00', '\x01', '\x1F', '\x7F']) = "unnamed_attachment" ∧
    (∀ name, safe_filename name ≠ "") := by
  refine ⟨fun name => ?_, by decide, by decide, fun name => ?_⟩
  · simp only [safe_filename, safeFilename_spec]
    by_cases h : ((name.data.filter (fun c => !isCtrlChar c)).map
        (fun c => if isForbiddenChar c then '_' else c)) = []
    · simp [h, List.isEmpty_iff, string_mk_eq_empty_iff]
    · simp [h, List.isEmpty_iff, string_mk_eq_empty_iff]
  · simp only [safe_filename]
    split_ifs with h
    · decide
    · exact h

/-- C5 witness: the never-empty conjunct applied at a concrete name. -/
theorem safe_filename_correct_witness : safe_filename "report.pdf" ≠ "" :=
  safe_filename_correct.2.2.2 "report.pdf"

/-- C10 counterexample: the claim says the MessageID field equals
"UNKNOWN" only when the message has no `messageId` attribute at all, but
a present attribute whose value is the string "UNKNOWN" also produces
"UNKNOWN", because the code cannot distinguish the `getattr` default
from a real value. -/
theorem messageIdField_cex :
    messageIdField (some (PVal.vstr "UNKNOWN")) = "UNKNOWN" ∧
    some (PVal.vstr "UNKNOWN") ≠ (none : Option PVal) := by
  exact ⟨by decide, by decide⟩

/-- C10 (amended): the MessageID field is "UNKNOWN" whenever the decoded
message has no `messageId` attribute; when the attribute exists but is
null it is the empty string; otherwise it is the cleaned attribute
value — which can itself be "UNKNOWN" when the attribute cleans to that
string, so "UNKNOWN" does not certify an absent attribute. -/
theorem messageIdField_spec :
    (messageIdField none = "UNKNOWN") ∧
    (messageIdField (some PVal.vnone) = "") ∧
    (∀ v, messageIdField (some v) = clean_value v) ∧
    (∀ a : Option PVal, messageIdField a = "UNKNOWN" ↔
      a = none ∨ ∃ v, a = some v ∧ clean_value v = "UNKNOWN") ∧
    (∀ msg filepath stem dir fl tl st fs,
      (buildRecord msg filepath stem dir fl tl st fs).1.MessageID =
        messageIdField msg.messageId) := by
  refine ⟨by decide, rfl, fun v => rfl, fun a => ?_, fun msg fp stem dir fl tl st fs => rfl⟩
  cases a with
  | none => exact iff_of_true (by decide) (Or.inl rfl)
  | some v =>
    simp only [messageIdField, Option.getD_some]
    constructor
    · intro h
      exact Or.inr ⟨v, rfl, h⟩
    · rintro (h | ⟨w, hw, hclean⟩)
      · exact absurd h (by simp)
      · cases hw
        exact hclean

/-- C10 witness: the characterization applied at a present non-null
attribute value. -/
theorem messageIdField_spec_witness :
    messageIdField (some (PVal.vstr "id-1")) = clean_value (PVal.vstr "id-1") :=
  messageIdField_spec.2.2.1 (PVal.vstr "id-1")

/-- A concrete decoded message whose HTML body attribute is present but
holds the empty string while the plain-text body is nonempty. -/
def msgHtmlEmpty : MsgData :=
  { date := none, sender := "", toAddr := "", htmlBody := PVal.vstr "",
    body := PVal.vstr "hi", messageId := none, attachments := [] }

/-- C7 counterexample: the claim says the record body is the HTML body
whenever the HTML body is present and falls back to the plain-text body
only when the HTML body is absent; but the code tests Python truthiness
of the cleaned HTML body, so a present-but-empty HTML body (here the
empty string, with no stripping requested) falls back to the plain-text
body "hi" instead of yielding the (empty) HTML body. -/
theorem body_selection_cex :
    (buildRecord msgHtmlEmpty "m.msg" "m" "Attachments" 3 3 false []).1.Message = "hi" ∧
    msgHtmlEmpty.htmlBody ≠ PVal.vnone ∧
    clean_value msgHtmlEmpty.htmlBody ≠ "hi" := by
  exact ⟨by decide, by decide, by decide⟩

/-- C7 (amended): the record body is the cleaned HTML body
(markup-stripped exactly when the strip flag is set) whenever the
cleaned HTML body is nonempty; it falls back to the cleaned plain-text
body when the cleaned HTML body is empty — in particular when the HTML
body is absent — and it is the empty string when both bodies clean to
the empty string. -/
theorem body_selection_spec :
    (∀ msg filepath stem dir fl tl st fs,
      (buildRecord msg filepath stem dir fl tl st fs).1.Message =
        selectBody msg.htmlBody msg.body st) ∧
    (∀ hb b st, clean_value hb ≠ "" →
      selectBody hb b st =
        (if st then stripSub (clean_value hb) else clean_value hb)) ∧
    (∀ hb b st, clean_value hb = "" → clean_value b ≠ "" →
      selectBody hb b st =
        (if st then stripSub (clean_value b) else clean_value b)) ∧
    (∀ hb b st, clean_value hb = "" → clean_value b = "" →
      selectBody hb b st = "") := by
  refine ⟨fun msg fp stem dir fl tl st fs => rfl, fun hb b st h => ?_,
    fun hb b st h1 h2 => ?_, fun hb b st h1 h2 => ?_⟩
  · simp only [selectBody, pyOrStr, h, ite_false, if_neg h]
    cases st <;> simp [h]
  · simp only [selectBody, pyOrStr, h1, ite_true, if_neg h2]
    cases st <;> simp [h2]
  · simp [selectBody, pyOrStr, h1, h2]

/-- C7 witness: the nonempty-HTML conjunct applied at a concrete pair of
bodies with stripping off. -/
theorem body_selection_spec_witness :
    selectBody (PVal.vstr "x") PVal.vnone false = "x" := by
  have h := body_selection_spec.2.1 (PVal.vstr "x") PVal.vnone false (by decide)
  simpa using h

theorem streamPhase_eq (results : List (Option MessageRecord × Option String)) :
    streamPhase results = (results.filterMap Prod.fst, results.filterMap Prod.snd) := by
  induction results with
  | nil => rfl
  | cons p rest ih =>
    obtain ⟨r, e⟩ := p
    simp only [streamPhase, ih, List.filterMap_cons]
    cases r <;> cases e <;> simp

/-- C1: the task wrapper returns exactly one of a successful record
(with no error) or an error message pairing the source path with the
failure (with no record) — every exception of the try block, which
covers decoding, normalization, and attachment writing, is modelled by
the `Except.error` outcome and caught there; and the result-collection
loop writes exactly the records of the successful tasks to the output
stream, in order, while collecting exactly the error messages of the
failed tasks, so one failing task removes exactly its own record from
the output and no other. -/
theorem process_msg_file_isolation (tasks : List (String × Except String MessageRecord)) :
    (∀ filepath body,
      ((process_msg_file filepath body).1.isSome ∧ (process_msg_file filepath body).2 = none) ∨
      ((process_msg_file filepath body).1 = none ∧ (process_msg_file filepath body).2.isSome)) ∧
    (streamPhase (tasks.map (fun t => process_msg_file t.1 t.2))).1 =
      tasks.filterMap (fun t =>
        match t.2 with
        | Except.ok r => some r
        | Except.error _ => none) ∧
    (streamPhase (tasks.map (fun t => process_msg_file t.1 t.2))).2 =
      tasks.filterMap (fun t =>
        match t.2 with
        | Except.ok _ => none
        | Except.error e => some ("Error parsing " ++ t.1 ++ ": " ++ e)) := by
  refine ⟨fun filepath body => ?_, ?_, ?_⟩
  · cases body with
    | ok r => exact Or.inl ⟨rfl, rfl⟩
    | error e => exact Or.inr ⟨rfl, rfl⟩
  · rw [streamPhase_eq]
    simp only [List.filterMap_map]
    apply List.filterMap_congr
    rintro ⟨fp, body⟩ -
    cases body <;> rfl
  · rw [streamPhase_eq]
    simp only [List.filterMap_map]
    apply List.filterMap_congr
    rintro ⟨fp, body⟩ -
    cases body <;> rfl

theorem hasNul_safe_filename (s : String) : hasNul (safe_filename s) = false := by
  simp only [safe_filename]
  split_ifs with h
  · decide
  · simp only [hasNul, List.any_eq_false]
    intro c hc
    simp only [List.mem_map, List.mem_filter] at hc
    obtain ⟨c0, ⟨hmem, hk⟩, rfl⟩ := hc
    by_cases hf : isForbiddenChar c0 = true
    · simp [hf]
    · simp only [hf, ite_false, Bool.false_eq_true, if_false, decide_eq_true_eq]
      intro hceq
      subst hceq
      exact absurd hk (by decide)

theorem pyTruthy_rawName (a : Attachment) :
    pyTruthy (rawName a) = (pyTruthy a.longFilename || pyTruthy a.shortFilename) := by
  cases hl : pyTruthy a.longFilename <;> simp [rawName, hl]

theorem materialize_names (atts : List Attachment) (stem dir : String) (fs : Fs) :
    (materialize atts stem dir fs).1 =
      atts.filterMap (fun a =>
        if pyTruthy (rawName a) then some (clean_value (PVal.vstr (savedName stem a)))
        else none) := by
  induction atts generalizing fs with
  | nil => rfl
  | cons a rest ih =>
    simp only [materialize, List.filterMap_cons]
    by_cases h : pyTruthy (rawName a) = true
    · simp [h, ih]
    · simp [h, ih]

theorem materialize_fs (atts : List Attachment) (stem dir : String) (fs : Fs) (p : String) :
    fsLookup (materialize atts stem dir fs).2 p =
      (match lastWrite atts stem dir p with
       | some d => some d
       | none => fsLookup fs p) := by
  induction atts generalizing fs with
  | nil => rfl
  | cons a rest ih =>
    simp only [materialize, lastWrite]
    by_cases h : pyTruthy (rawName a) = true
    · simp only [h, ite_true, if_true]
      rw [ih]
      cases hl : lastWrite rest stem dir p with
      | some d => simp [hl]
      | none =>
        simp only [hl, fsWrite, fsLookup]
        by_cases hp : dir ++ "/" ++ savedName stem a = p
        · simp [hp, h]
        · simp [hp, h]
    · simp only [h, Bool.false_eq_true, ite_false, if_false]
      rw [ih]
      cases hl : lastWrite rest stem dir p <;> simp [hl, h]

/-- C6: the attachment loop skips exactly the entries whose long and
short names are both missing or empty (without error); each retained
entry is saved under the name built from the stem of the source file
and the sanitized chosen name, in the attachments directory, with a
later write to the same path overwriting an earlier one
(last-writer-wins, no collision detection); and the returned list holds
the saved names in the original attachment order (the code returns
`clean_value` of each name, which is the name itself whenever the stem
holds no NUL character, as every real path stem does). -/
theorem materialize_correct (atts : List Attachment) (stem dir : String) (fs : Fs) :
    ((materialize atts stem dir fs).1 =
      atts.filterMap (fun a =>
        if pyTruthy (rawName a) then some (clean_value (PVal.vstr (savedName stem a)))
        else none)) ∧
    (∀ a, pyTruthy (rawName a) = (pyTruthy a.longFilename || pyTruthy a.shortFilename)) ∧
    (hasNul stem = false →
      (materialize atts stem dir fs).1 =
        atts.filterMap (fun a =>
          if pyTruthy (rawName a) then some (savedName stem a) else none)) ∧
    (∀ p, fsLookup (materialize atts stem dir fs).2 p =
      (match lastWrite atts stem dir p with
       | some d => some d
       | none => fsLookup fs p)) := by
  refine ⟨materialize_names atts stem dir fs, pyTruthy_rawName, fun hstem => ?_,
    fun p => materialize_fs atts stem dir fs p⟩
  rw [materialize_names]
  apply List.filterMap_congr
  intro a _
  by_cases h : pyTruthy (rawName a) = true
  · simp only [h, ite_true, if_true, Option.some.injEq]
    show removeNul (savedName stem a) = savedName stem a
    apply removeNul_eq_self
    have hu : hasNul "_" = false := by decide
    simp [savedName, hasNul_append, hstem, hu, hasNul_safe_filename]
  · simp [h]

/-- A concrete attachment list: a retained entry with a long name, a
skipped entry with neither name, and a retained entry whose long name is
empty but whose short name is set. -/
def attsDemo : List Attachment :=
  [{ longFilename := some "a.txt", shortFilename := none, data := [1, 2] },
   { longFilename := none, shortFilename := none, data := [3] },
   { longFilename := some "", shortFilename := some "b", data := [4] }]

/-- C6 witness: on the concrete attachment list the returned names are
the saved names of the two retained entries, in order, and the
filesystem holds the payload written for the short-named entry. -/
theorem materialize_correct_witness :
    hasNul "mail" = false ∧
    (materialize attsDemo "mail" "Att" []).1 = ["mail_a.txt", "mail_b"] ∧
    fsLookup (materialize attsDemo "mail" "Att" []).2 "Att/mail_b" = some [4] := by
  have h := materialize_correct attsDemo "mail" "Att" []
  refine ⟨by decide, (h.2.2.1 (by decide)).trans (by decide),
    (h.2.2.2 "Att/mail_b").trans (by decide)⟩

theorem afterGt_length : ∀ {l r : List Char}, afterGt l = some r → r.length < l.length := by
  intro l
  induction l with
  | nil => intro r h; simp [afterGt] at h
  | cons c rest ih =>
    intro r h
    simp only [afterGt] at h
    split_ifs at h with hc
    · simp only [Option.some.injEq] at h
      subst h
      simp [List.length_cons]
    · have := ih h
      simp only [List.length_cons]
      omega

theorem afterTag_length : ∀ {l r : List Char}, afterTag l = some r → r.length + 2 ≤ l.length := by
  intro l r h
  cases l with
  | nil => simp [afterTag] at h
  | cons c rest =>
    simp only [afterTag] at h
    split_ifs at h with hc
    have := afterGt_length h
    simp only [List.length_cons]
    omega

theorem afterGt_sublist : ∀ {l r : List Char}, afterGt l = some r → r.Sublist l := by
  intro l
  induction l with
  | nil => intro r h; simp [afterGt] at h
  | cons c rest ih =>
    intro r h
    simp only [afterGt] at h
    split_ifs at h with hc
    · simp only [Option.some.injEq] at h
      subst h
      exact List.Sublist.cons c (List.Sublist.refl _)
    · exact List.Sublist.cons c (ih h)

theorem afterTag_sublist : ∀ {l r : List Char}, afterTag l = some r → r.Sublist l := by
  intro l r h
  cases l with
  | nil => simp [afterTag] at h
  | cons c rest =>
    simp only [afterTag] at h
    split_ifs at h with hc
    exact List.Sublist.cons c (afterGt_sublist h)

theorem afterGt_eq_none : ∀ {l : List Char}, afterGt l = none → '>' ∉ l := by
  intro l
  induction l with
  | nil => intro _; exact List.not_mem_nil _
  | cons c rest ih =>
    intro h
    simp only [afterGt] at h
    split_ifs at h with hc
    intro hm
    rcases List.mem_cons.mp hm with h2 | h2
    · exact hc h2.symm
    · exact ih h h2

theorem afterGt_none_of_not_mem : ∀ {l : List Char}, '>' ∉ l → afterGt l = none := by
  intro l
  induction l with
  | nil => intro _; rfl
  | cons c rest ih =>
    intro h
    have hc : ¬(c = '>') := fun hc => h (hc ▸ List.mem_cons_self c rest)
    simp only [afterGt, if_neg hc]
    exact ih (fun hm => h (List.mem_cons_of_mem c hm))

theorem afterTag_none_of_not_mem {l : List Char} (h : '>' ∉ l) : afterTag l = none := by
  cases l with
  | nil => rfl
  | cons c rest =>
    simp only [afterTag]
    split_ifs with hc
    · rfl
    · exact afterGt_none_of_not_mem (fun hm => h (List.mem_cons_of_mem c hm))

theorem subTagsF_nil (n : Nat) : subTagsF n [] = [] := by
  cases n <;> rfl

theorem subTags_sublist : ∀ (n : Nat) (cs : List Char), (subTagsF n cs).Sublist cs := by
  intro n
  induction n with
  | zero => intro cs; exact List.Sublist.refl cs
  | succ n ih =>
    intro cs
    cases cs with
    | nil => exact List.Sublist.refl []
    | cons c rest =>
      simp only [subTagsF]
      by_cases hc : c = '<'
      · rw [if_pos hc]
        cases ht : afterTag rest with
        | some r2 =>
          exact List.Sublist.cons c ((ih r2).trans (afterTag_sublist ht))
        | none =>
          exact List.Sublist.cons₂ c (ih rest)
      · rw [if_neg hc]
        exact List.Sublist.cons₂ c (ih rest)

theorem hasTag_subTagsF : ∀ (n : Nat) (cs : List Char), cs.length ≤ n →
    hasTag (subTagsF n cs) = false := by
  intro n
  induction n with
  | zero =>
    intro cs hlen
    have h0 : cs = [] := List.eq_nil_of_length_eq_zero (Nat.le_zero.mp hlen)
    subst h0
    rfl
  | succ n ih =>
    intro cs hlen
    cases cs with
    | nil => rfl
    | cons c rest =>
      have hrest : rest.length ≤ n := by
        simp only [List.length_cons] at hlen
        omega
      simp only [subTagsF]
      by_cases hc : c = '<'
      · rw [if_pos hc]
        cases ht : afterTag rest with
        | some r2 =>
          have := afterTag_length ht
          exact ih r2 (by omega)
        | none =>
          have hout : hasTag (subTagsF n rest) = false := ih rest hrest
          have hnone : afterTag (subTagsF n rest) = none := by
            cases rest with
            | nil =>
              rw [subTagsF_nil]
              rfl
            | cons c2 t =>
              by_cases hc2 : c2 = '>'
              · have hn1 : 1 ≤ n := by
                  simp only [List.length_cons] at hrest
                  omega
                obtain ⟨m, rfl⟩ : ∃ m, n = m + 1 := ⟨n - 1, by omega⟩
                have hne : ¬(c2 = '<') := by
                  rw [hc2]
                  decide
                simp only [subTagsF, if_neg hne, afterTag, if_pos hc2]
              · have hng : afterGt t = none := by
                  simp only [afterTag] at ht
                  rwa [if_neg hc2] at ht
                have hnm : '>' ∉ (c2 :: t) := by
                  intro hm
                  rcases List.mem_cons.mp hm with h2 | h2
                  · exact hc2 h2.symm
                  · exact afterGt_eq_none hng h2
                have hsub := subTags_sublist n (c2 :: t)
                exact afterTag_none_of_not_mem (fun hm => hnm (hsub.subset hm))
          simp [hasTag, hnone, hout]
      · rw [if_neg hc]
        simp [hasTag, hc, ih rest hrest]

theorem subTagsF_no_tag_id : ∀ (n : Nat) (cs : List Char), cs.length ≤ n →
    hasTag cs = false → subTagsF n cs = cs := by
  intro n
  induction n with
  | zero =>
    intro cs hlen _
    have h0 : cs = [] := List.eq_nil_of_length_eq_zero (Nat.le_zero.mp hlen)
    subst h0
    rfl
  | succ n ih =>
    intro cs hlen htag
    cases cs with
    | nil => rfl
    | cons c rest =>
      have hrest : rest.length ≤ n := by
        simp only [List.length_cons] at hlen
        omega
      simp only [hasTag, Bool.or_eq_false_iff] at htag
      obtain ⟨h1, h2⟩ := htag
      simp only [subTagsF]
      by_cases hc : c = '<'
      · rw [if_pos hc]
        have hnone : afterTag rest = none := by
          rcases Bool.and_eq_false_iff.mp h1 with h | h
          · exact absurd h (by simp [hc])
          · exact Option.not_isSome_iff_eq_none.mp (by simp [h])
        simp only [hnone]
        rw [ih rest hrest h2]
      · rw [if_neg hc]
        rw [ih rest hrest h2]

/-- C8: `strip_html_tags` passes absent and empty input through
unchanged without error; its output contains no tag-shaped `<...>`
substring (every such substring of the input is removed); on input
containing no tag it returns the input unchanged; and it maps
"<b>hi</b> there" to "hi there". -/
theorem strip_html_tags_correct :
    (strip_html_tags none = none) ∧
    (strip_html_tags (some "") = some "") ∧
    (∀ s : String, hasTag (stripSub s).data = false) ∧
    (∀ s : String, hasTag s.data = false → strip_html_tags (some s) = some s) ∧
    (strip_html_tags (some "<b>hi</b> there") = some "hi there") := by
  refine ⟨rfl, rfl, fun s => ?_, fun s h => ?_, by decide⟩
  · exact hasTag_subTagsF s.data.length s.data (Nat.le_refl _)
  · simp only [strip_html_tags]
    by_cases h0 : s = ""
    · simp [h0]
    · rw [if_neg h0]
      obtain ⟨l⟩ := s
      simp only [stripSub, Option.some.injEq]
      show String.mk (subTagsF l.length l) = String.mk l
      rw [subTagsF_no_tag_id l.length l (Nat.le_refl _) h]

/-- C8 witness: the unchanged-without-tags conjunct applied at a
concrete tag-free string. -/
theorem strip_html_tags_correct_witness :
    hasTag "hello world".data = false ∧
    strip_html_tags (some "hello world") = some "hello world" :=
  ⟨by decide, strip_html_tags_correct.2.2.2.1 "hello world" (by decide)⟩

theorem filter_orderedInsert {α : Type} (r : α → α → Prop) [DecidableRel r]
    (p : α → Bool) (x : α) (l : List α)
    (hx : p x = true → ∀ y, p y = true → r x y) :
    (l.orderedInsert r x).filter p = if p x then x :: l.filter p else l.filter p := by
  induction l with
  | nil =>
    simp only [List.orderedInsert]
    cases hp : p x <;> simp [List.filter, hp]
  | cons y ys ih =>
    simp only [List.orderedInsert]
    by_cases hr : r x y
    · rw [if_pos hr]
      cases hp : p x <;> simp [List.filter_cons, hp]
    · rw [if_neg hr]
      simp only [List.filter_cons]
      cases hp : p x with
      | true =>
        have hpy : p y = false := by
          cases hq : p y
          · rfl
          · exact absurd (hx hp y hq) hr
        simp [hpy, ih, hp]
      | false =>
        simp [ih, hp]
  
theorem filter_insertionSort {α : Type} (r : α → α → Prop) [DecidableRel r]
    (p : α → Bool) (l : List α)
    (h : ∀ x y, p x = true → p y = true → r x y) :
    (List.insertionSort r l).filter p = l.filter p := by
  induction l with
  | nil => rfl
  | cons a l ih =>
    simp only [List.insertionSort]
    rw [filter_orderedInsert r p a _ (fun hpa y hpy => h a y hpa hpy), ih,
      List.filter_cons]

/-- C3: when the sort mode is not none, the reorder pass keeps exactly
the records of the file (a permutation: none duplicated or lost), sorts
them on the Date key treated as a string — ascending for every mode
other than desc, descending for desc — stably (records of equal key
keep their original relative order, stated through filters), with a
missing or empty Date giving the lowest key; and the ascending reorder
is idempotent, so running it twice produces the same file as running it
once (record lists being equal, the rewritten JSON lines are
byte-identical). -/
theorem reorder_pass_correct (mode : String) (recs : List OutRecord) :
    ((reorderPass mode recs).Perm recs) ∧
    (mode ≠ "none" → mode ≠ "desc" → (reorderPass mode recs).Sorted ascR) ∧
    ((reorderPass "desc" recs).Sorted descR) ∧
    (mode ≠ "none" → ∀ k, (reorderPass mode recs).filter (fun r => dateKey r == k) =
      recs.filter (fun r => dateKey r == k)) ∧
    (reorderPass "asc" (reorderPass "asc" recs) = reorderPass "asc" recs) ∧
    (∀ rest, dateKey { dateField := none, rest := rest } = "") ∧
    (∀ rest, dateKey { dateField := some "", rest := rest } = "") ∧
    (∀ s, strLeB "" s = true) ∧
    (reorderPass "none" recs = recs) := by
  refine ⟨?_, ?_, ?_, ?_, ?_, fun rest => rfl, fun rest => rfl, fun s => rfl, ?_⟩
  · simp only [reorderPass]
    split_ifs with h1 h2
    · exact List.Perm.refl recs
    · exact List.perm_insertionSort descR recs
    · exact List.perm_insertionSort ascR recs
  · intro h1 h2
    simp only [reorderPass, if_neg h1, if_neg h2]
    exact List.sorted_insertionSort ascR recs
  · have h1 : ¬("desc" = "none") := by decide
    simp only [reorderPass, if_neg h1, if_pos rfl]
    exact List.sorted_insertionSort descR recs
  · intro h1 k
    simp only [reorderPass, if_neg h1]
    by_cases h2 : mode = "desc"
    · rw [if_pos h2]
      refine filter_insertionSort descR _ recs (fun x y hx hy => ?_)
      have hx2 : dateKey x = k := by simpa using hx
      have hy2 : dateKey y = k := by simpa using hy
      show strLeB (dateKey y) (dateKey x) = true
      rw [hx2, hy2]
      exact strLeB_refl k
    · rw [if_neg h2]
      refine filter_insertionSort ascR _ recs (fun x y hx hy => ?_)
      have hx2 : dateKey x = k := by simpa using hx
      have hy2 : dateKey y = k := by simpa using hy
      show strLeB (dateKey x) (dateKey y) = true
      rw [hx2, hy2]
      exact strLeB_refl k
  · have h1 : ¬("asc" = "none") := by decide
    have h2 : ¬("asc" = "desc") := by decide
    simp only [reorderPass, if_neg h1, if_neg h2]
    exact List.Sorted.insertionSort_eq (List.sorted_insertionSort ascR recs)
  · simp [reorderPass]

/-- A record with the later date, listed first in the demo file. -/
def recDemoA : OutRecord := { dateField := some "2021-03-01T00:00:00", rest := "a" }

/-- A record with the earlier date, listed second in the demo file. -/
def recDemoB : OutRecord := { dateField := some "2020-01-01T00:00:00", rest := "b" }

/-- C3 witness: the sortedness and stability conjuncts applied at a
concrete mode and record list, with the mode hypotheses discharged. -/
theorem reorder_pass_correct_witness :
    (reorderPass "asc" [recDemoA, recDemoB]).Sorted ascR ∧
    (reorderPass "NONE" [recDemoA, recDemoB]).filter
        (fun r => dateKey r == "2020-01-01T00:00:00") =
      [recDemoA, recDemoB].filter (fun r => dateKey r == "2020-01-01T00:00:00") :=
  ⟨(reorder_pass_correct "asc" [recDemoA, recDemoB]).2.1 (by decide) (by decide),
   (reorder_pass_correct "NONE" [recDemoA, recDemoB]).2.2.2.1 (by decide)
     "2020-01-01T00:00:00"⟩

/-- C9: the sort mode is never validated against the enum: the reorder
pass is skipped only for the exact string none, it sorts descending
only for the exact string desc, and every other string — NONE, Asc, or
an arbitrary typo — silently produces an ascending sort rather than an
error or a no-op, as the concrete two-record instances show. -/
theorem sort_mode_not_validated :
    (∀ (mode : String) (recs : List OutRecord),
      reorderPass mode recs =
        if mode = "none" then recs
        else if mode = "desc" then List.insertionSort descR recs
        else List.insertionSort ascR recs) ∧
    reorderPass "NONE" [recDemoA, recDemoB] = [recDemoB, recDemoA] ∧
    reorderPass "Asc" [recDemoA, recDemoB] = [recDemoB, recDemoA] ∧
    reorderPass "dsec" [recDemoA, recDemoB] = [recDemoB, recDemoA] ∧
    reorderPass "desc" [recDemoB, recDemoA] = [recDemoA, recDemoB] ∧
    reorderPass "none" [recDemoA, recDemoB] = [recDemoA, recDemoB] := by
  refine ⟨fun mode recs => rfl, ?_, ?_, ?_, ?_, ?_⟩ <;> decide
